import Mathlib

/-!
Verification of the load-bal-llamaedge-demo repository.

The development shallowly embeds the three Rust source files:

* `src/load-balancer-llamaedge/src/main.rs` — the current load balancer:
  `Service` (name, weight), `ServiceRegistry` (a `Vec<Service>` behind a lock,
  modelled as a plain `List Service` since each operation holds the write lock
  for its whole body), `get_service_address` (environment lookup, modelled by
  an explicit environment function `String → Option String`), `select_service`
  (weighted random selection; the random draw is passed as an explicit `Nat`
  argument) and the request-routing part of `handle_client`/`handle_api_request`.

* `src/load-balancer-llamaedge/src/main.v0.rs` — the earlier revision whose
  `Service` also carries `ip` and `port`, whose `register_service` performs no
  environment validation, and whose `select_service` accumulates with
  `saturating_sub`.

* `src/watcher/src/main.rs` — `sync_services_with_load_balancer`, the
  three-way name-keyed diff between the Kubernetes desired state and the load
  balancer registry.

`u32` arithmetic is modelled on `Nat`: the `choice -= service.weight`
subtraction of `main.rs` is wrapping `u32` subtraction, written explicitly as
`(choice + u32Mod - weight) % u32Mod`; the `saturating_sub` of `main.v0.rs`
coincides with truncated `Nat` subtraction.
-/

/-- `2^32`, the modulus of `u32` arithmetic. -/
def u32Mod : Nat := 4294967296

/-- `Service` from `main.rs`: one routable backend, `name` and `weight : u32`. -/
structure Service where
  name : String
  weight : Nat
deriving DecidableEq

/-- `Service` from `main.v0.rs`: backend with `name`, `weight : u32`,
`ip : String` and `port : u16`.  The watcher's `RegisterPayload` and
`RegisteredService` have exactly the same four fields, so this type also
serves as the watcher's view of an entry. -/
structure ServiceV0 where
  name : String
  weight : Nat
  ip : String
  port : Nat
deriving DecidableEq

/-- The field projection relating the two `Service` revisions. -/
def toService (e : ServiceV0) : Service :=
  { name := e.name, weight := e.weight }

/-- The environment-variable base name computed by `get_service_address` in
`main.rs`: `service_name.to_uppercase().replace("-", "_")`, written as a single
character map (for ASCII names uppercasing is character-wise, and only the
character `'-'` is replaced). -/
def envBaseOf (service_name : String) : String :=
  String.mk (service_name.data.map (fun c => if c = '-' then '_' else c.toUpper))

/-- `get_service_address` from `main.rs`: reads `{BASE}_SERVICE_HOST` (required)
and `{BASE}_SERVICE_PORT` (defaulting to `"8080"`) from the process environment
`env` and produces `host:port`. -/
def get_service_address (env : String → Option String) (service_name : String) :
    Option String :=
  match env (envBaseOf service_name ++ "_SERVICE_HOST") with
  | none => none
  | some host =>
      some (host ++ ":" ++ ((env (envBaseOf service_name ++ "_SERVICE_PORT")).getD "8080"))

/-- The locked section of `ServiceRegistry::register_service` (`main.rs`
lines 48–65, identical to the whole body of the `main.v0.rs` revision up to the
extra fields): find the first entry with the same name and overwrite it, or
push the new entry at the end. -/
def insertOrReplace : List Service → Service → List Service
  | [], s => [s]
  | t :: rest, s =>
      if t.name = s.name then s :: rest else t :: insertOrReplace rest s

/-- `ServiceRegistry::register_service` from `main.rs`: validates that the
service name resolves through `get_service_address` and returns the registry
unchanged when it does not; otherwise inserts or replaces by name. -/
def register_service (env : String → Option String) (R : List Service)
    (s : Service) : List Service :=
  if (get_service_address env s.name).isNone then R else insertOrReplace R s

/-- The `services.retain(|s| s.name != name)` step of
`ServiceRegistry::unregister_service`: remove every entry with the given name. -/
def removeName : List Service → String → List Service
  | [], _ => []
  | s :: rest, n =>
      if s.name = n then removeName rest n else s :: removeName rest n

/-- `ServiceRegistry::unregister_service` from `main.rs`: removes by name and
reports whether the registry shrank. -/
def unregister_service (R : List Service) (n : String) : List Service × Bool :=
  let R' := removeName R n
  (R', decide (R'.length < R.length))

/-- `services.iter().find(|s| s.name == name)`: first entry with the name. -/
def findService : List Service → String → Option Service
  | [], _ => none
  | s :: rest, n => if s.name = n then some s else findService rest n

/-- Whether some entry with the given name is present (the
`iter().find(..)` test used by `register_service`). -/
def containsName (R : List Service) (n : String) : Bool :=
  (findService R n).isSome

/-- The list of registered names, in registry order. -/
def namesOf (R : List Service) : List String :=
  R.map Service.name

/-- How many entries carry the given name. -/
def countName : List Service → String → Nat
  | [], _ => 0
  | s :: rest, n =>
      if s.name = n then countName rest n + 1 else countName rest n

/-- `services.iter().map(|s| s.weight).sum::<u32>()` as an exact sum. -/
def totalWeight (l : List Service) : Nat :=
  (l.map Service.weight).sum

/-- The accumulation loop of `select_service` in `main.rs`.  `choice` is a
`u32`, and `choice -= service.weight` is wrapping `u32` subtraction, modelled
as `(choice + u32Mod - weight) % u32Mod` (for in-range operands this is the
two's-complement value of the difference). -/
def selectLoop : List Service → Nat → Option Service
  | [], _ => none
  | s :: rest, choice =>
      if choice < s.weight then some s
      else selectLoop rest ((choice + u32Mod - s.weight) % u32Mod)

/-- `select_service` from `main.rs` with the random draw made explicit:
empty pool yields `none` (`NoBackendAvailable`), an all-zero-weight pool yields
the first entry, otherwise the weighted walk runs with initial `choice = r`
and falls back to the first entry if the loop finishes without selecting. -/
def select_service (l : List Service) (r : Nat) : Option Service :=
  if l = [] then none
  else if totalWeight l = 0 then l.head?
  else
    match selectLoop l r with
    | some s => some s
    | none => l.head?

/-- `register_service` from `main.v0.rs`: no validation, unconditionally
insert or replace by name. -/
def insertOrReplaceV0 : List ServiceV0 → ServiceV0 → List ServiceV0
  | [], s => [s]
  | t :: rest, s =>
      if t.name = s.name then s :: rest else t :: insertOrReplaceV0 rest s

/-- `ServiceRegistry::register_service` from `main.v0.rs`. -/
def register_service_v0 (R : List ServiceV0) (s : ServiceV0) : List ServiceV0 :=
  insertOrReplaceV0 R s

/-- The `retain` step of `unregister_service` in `main.v0.rs`. -/
def removeNameV0 : List ServiceV0 → String → List ServiceV0
  | [], _ => []
  | s :: rest, n =>
      if s.name = n then removeNameV0 rest n else s :: removeNameV0 rest n

/-- `ServiceRegistry::unregister_service` from `main.v0.rs`. -/
def unregister_service_v0 (R : List ServiceV0) (n : String) :
    List ServiceV0 × Bool :=
  let R' := removeNameV0 R n
  (R', decide (R'.length < R.length))

/-- First entry with the given name (`find` in `main.v0.rs`, and the
name-keyed map lookup `lb_service_map.get(name)` of the watcher, which agree
when names are unique). -/
def findV0 : List ServiceV0 → String → Option ServiceV0
  | [], _ => none
  | s :: rest, n => if s.name = n then some s else findV0 rest n

/-- Name-membership test (`contains_key` on the watcher's name-keyed maps). -/
def containsV0 (R : List ServiceV0) (n : String) : Bool :=
  (findV0 R n).isSome

/-- The list of names, in order. -/
def namesV0 (R : List ServiceV0) : List String :=
  R.map ServiceV0.name

/-- How many entries carry the given name. -/
def countNameV0 : List ServiceV0 → String → Nat
  | [], _ => 0
  | s :: rest, n =>
      if s.name = n then countNameV0 rest n + 1 else countNameV0 rest n

/-- Total weight of a `main.v0.rs` pool. -/
def totalWeightV0 (l : List ServiceV0) : Nat :=
  (l.map ServiceV0.weight).sum

/-- The accumulation loop of `select_service` in `main.v0.rs`:
`choice = choice.saturating_sub(service.weight)`, which on `Nat` is exactly
truncated subtraction. -/
def selectLoopV0 : List ServiceV0 → Nat → Option ServiceV0
  | [], _ => none
  | s :: rest, choice =>
      if choice < s.weight then some s
      else selectLoopV0 rest (choice - s.weight)

/-- `select_service` from `main.v0.rs` with the random draw made explicit. -/
def select_service_v0 (l : List ServiceV0) (r : Nat) : Option ServiceV0 :=
  if l = [] then none
  else if totalWeightV0 l = 0 then l.head?
  else
    match selectLoopV0 l r with
    | some s => some s
    | none => l.head?

/-- Cumulative weight of the first `k` entries of a pool. -/
def cumWeight (l : List Service) (k : Nat) : Nat :=
  totalWeight (l.take k)

/-- One HTTP mutation issued by the watcher to the load balancer:
`POST /api/register` with an entry, or `DELETE /api/unregister/{name}`. -/
inductive Mutation where
  | reg (e : ServiceV0)
  | unreg (n : String)
deriving DecidableEq

/-- Pass 1 of `sync_services_with_load_balancer` (watcher `main.rs`): register
every desired entry whose name is absent from the load balancer snapshot. -/
def registerMissing (D R : List ServiceV0) : List Mutation :=
  D.filterMap (fun e => if containsV0 R e.name then none else some (.reg e))

/-- Pass 2 of `sync_services_with_load_balancer`: unregister every load
balancer entry whose name is absent from the desired state. -/
def removeStale (D R : List ServiceV0) : List Mutation :=
  R.filterMap (fun e => if containsV0 D e.name then none else some (.unreg e.name))

/-- Pass 3 of `sync_services_with_load_balancer`: re-register every desired
entry present in the load balancer snapshot whose weight, ip, or port differ. -/
def updateChanged (D R : List ServiceV0) : List Mutation :=
  D.filterMap (fun e =>
    match findV0 R e.name with
    | some old =>
        if old.weight = e.weight ∧ old.ip = e.ip ∧ old.port = e.port then none
        else some (.reg e)
    | none => none)

/-- The full mutation sequence of one `sync_services_with_load_balancer` pass,
in source order (pass 1, then pass 2, then pass 3).  All membership tests read
the initial snapshots `D` and `R`, exactly as the Rust code consults the two
maps built before any HTTP call is made. -/
def syncMutations (D R : List ServiceV0) : List Mutation :=
  registerMissing D R ++ removeStale D R ++ updateChanged D R

/-- Effect of one watcher mutation on the load balancer registry, per the
`main.v0.rs` handlers of `/api/register` and `/api/unregister/{name}`. -/
def applyMutation (R : List ServiceV0) : Mutation → List ServiceV0
  | .reg e => register_service_v0 R e
  | .unreg n => (unregister_service_v0 R n).1

/-- Apply a mutation sequence in order. -/
def applyMutations (R : List ServiceV0) (ms : List Mutation) : List ServiceV0 :=
  ms.foldl applyMutation R

/-- Registry state after one `sync_services_with_load_balancer` pass against
desired state `D` and initial registry snapshot `R`. -/
def sync_services_with_load_balancer (D R : List ServiceV0) : List ServiceV0 :=
  applyMutations R (syncMutations D R)

/-- Whether pass 3 of the diff issues an update for name `n`: both snapshots
hold an entry named `n` and the two entries differ in weight, ip, or port.
Measuring helper used to state what `updateChanged` does at one name. -/
def updateHit (D R0 : List ServiceV0) (n : String) : Bool :=
  match findV0 D n, findV0 R0 n with
  | some e, some old =>
      if old.weight = e.weight ∧ old.ip = e.ip ∧ old.port = e.port then false
      else true
  | _, _ => false

/-- The parsed JSON body of `POST /api/register` in `main.rs`
(`RegisterRequest`). -/
structure RegisterRequest where
  name : String
  weight : Nat
deriving DecidableEq

/-- Response statuses produced by `handle_client`/`handle_api_request` in
`main.rs`.  `forwarded` stands for the successful proxy path, on which the
backend's bytes are relayed instead of a locally produced status line. -/
inductive HttpStatus where
  | ok
  | badRequest
  | notFound
  | serviceUnavailable
  | forwarded
deriving DecidableEq

/-- `str::starts_with`, written on the character list so that concrete
instances reduce by `decide`. -/
def strStartsWith (s p : String) : Bool :=
  decide (s.data.take p.data.length = p.data)

/-- Drop the first `n` characters (the effect of `strip_prefix` once
`starts_with` has succeeded; the paths involved are ASCII, so characters and
bytes coincide). -/
def strDrop (s : String) (n : Nat) : String :=
  String.mk (s.data.drop n)

/-- `handle_api_request` from `main.rs`, restricted to its routing decision
and registry effect.  `body` is the result of parsing the request body as a
`RegisterRequest` (`None` models malformed JSON).  Branches in source order:
`POST /api/register` (400 on bad JSON or unresolvable name, else register and
200), `DELETE /api/unregister/{name}` (200/404 by presence), `GET
/api/services` (200), anything else 404. -/
def handle_api_request (env : String → Option String) (R : List Service)
    (method path : String) (body : Option RegisterRequest) :
    HttpStatus × List Service :=
  if method = "POST" ∧ path = "/api/register" then
    match body with
    | some req =>
        if (get_service_address env req.name).isSome then
          (.ok, register_service env R { name := req.name, weight := req.weight })
        else (.badRequest, R)
    | none => (.badRequest, R)
  else if method = "DELETE" ∧ strStartsWith path "/api/unregister/" then
    let name := strDrop path ("/api/unregister/".data.length)
    let out := unregister_service R name
    if out.2 then (.ok, out.1) else (.notFound, out.1)
  else if method = "GET" ∧ path = "/api/services" then (.ok, R)
  else (.notFound, R)

/-- The routing decision and registry effect of `handle_client` from
`main.rs`, for a request whose request line parsed into `method` and `path`
(the `parts.len() != 3` → 400 branch is upstream of these inputs).  `canConnect`
models whether `TcpStream::connect` to a resolved backend address succeeds;
`r` is the random draw used by `select_service`. -/
def handle_client (env : String → Option String) (canConnect : String → Bool)
    (method path : String) (body : Option RegisterRequest) (R : List Service)
    (r : Nat) : HttpStatus × List Service :=
  if strStartsWith path "/api/" then
    handle_api_request env R method path body
  else if method ≠ "POST" ∨ path ≠ "/v1/chat/completions" then (.notFound, R)
  else
    match select_service R r with
    | none => (.serviceUnavailable, R)
    | some s =>
        match get_service_address env s.name with
        | none => (.serviceUnavailable, R)
        | some addr =>
            if canConnect addr then (.forwarded, R) else (.serviceUnavailable, R)

theorem namesOf_nil : namesOf ([] : List Service) = [] := rfl

theorem namesOf_cons (t : Service) (rest : List Service) :
    namesOf (t :: rest) = t.name :: namesOf rest := rfl

theorem findService_insertOrReplace (R : List Service) (e : Service) (m : String) :
    findService (insertOrReplace R e) m =
      if m = e.name then some e else findService R m := by
  induction R with
  | nil =>
      by_cases h : m = e.name
      · subst h
        simp [insertOrReplace, findService]
      · have h2 : ¬ e.name = m := fun hh => h hh.symm
        simp [insertOrReplace, findService, h, h2]
  | cons t rest ih =>
      by_cases h1 : t.name = e.name
      · by_cases h2 : m = e.name
        · subst h2
          simp [insertOrReplace, findService, h1]
        · have h3 : ¬ e.name = m := fun hh => h2 hh.symm
          have h4 : ¬ t.name = m := fun hh => h3 (h1 ▸ hh)
          simp [insertOrReplace, findService, h1, h2, h3, h4]
      · by_cases h2 : t.name = m
        · have h3 : ¬ m = e.name := fun hh => h1 (h2.trans hh)
          simp [insertOrReplace, findService, h1, h2, h3]
        · simp [insertOrReplace, findService, h1, h2, ih]

theorem mem_namesOf_iff_findService (R : List Service) (n : String) :
    n ∈ namesOf R ↔ (findService R n).isSome = true := by
  induction R with
  | nil => simp [namesOf_nil, findService]
  | cons t rest ih =>
      rw [namesOf_cons, List.mem_cons]
      by_cases h : t.name = n
      · simp [findService, h]
      · have h2 : ¬ n = t.name := fun hh => h hh.symm
        simp [findService, h, h2, ih]

theorem namesOf_insertOrReplace_mem (R : List Service) (e : Service)
    (h : e.name ∈ namesOf R) : namesOf (insertOrReplace R e) = namesOf R := by
  induction R with
  | nil => simp [namesOf_nil] at h
  | cons t rest ih =>
      by_cases h1 : t.name = e.name
      · simp [insertOrReplace, h1, namesOf_cons]
      · rw [namesOf_cons, List.mem_cons] at h
        rcases h with h | h
        · exact absurd h.symm h1
        · simp only [insertOrReplace, if_neg h1, namesOf_cons, ih h]

theorem namesOf_insertOrReplace_not_mem (R : List Service) (e : Service)
    (h : e.name ∉ namesOf R) :
    namesOf (insertOrReplace R e) = namesOf R ++ [e.name] := by
  induction R with
  | nil => simp [insertOrReplace, namesOf_cons, namesOf_nil]
  | cons t rest ih =>
      rw [namesOf_cons, List.mem_cons, not_or] at h
      have h1 : ¬ t.name = e.name := fun hh => h.1 hh.symm
      simp only [insertOrReplace, if_neg h1, namesOf_cons, List.cons_append,
        List.cons.injEq, true_and]
      exact ih h.2

theorem nodup_insertOrReplace (R : List Service) (e : Service)
    (h : (namesOf R).Nodup) : (namesOf (insertOrReplace R e)).Nodup := by
  by_cases hm : e.name ∈ namesOf R
  · rw [namesOf_insertOrReplace_mem R e hm]
    exact h
  · rw [namesOf_insertOrReplace_not_mem R e hm]
    simp [List.nodup_append, h, hm]

theorem mem_namesOf_removeName (R : List Service) (n m : String)
    (h : m ∈ namesOf (removeName R n)) : m ∈ namesOf R := by
  induction R with
  | nil => exact h
  | cons t rest ih =>
      simp only [removeName] at h
      by_cases h1 : t.name = n
      · rw [if_pos h1] at h
        rw [namesOf_cons, List.mem_cons]
        exact Or.inr (ih h)
      · rw [if_neg h1, namesOf_cons, List.mem_cons] at h
        rw [namesOf_cons, List.mem_cons]
        rcases h with h | h
        · exact Or.inl h
        · exact Or.inr (ih h)

theorem nodup_removeName (R : List Service) (n : String)
    (h : (namesOf R).Nodup) : (namesOf (removeName R n)).Nodup := by
  induction R with
  | nil => exact h
  | cons t rest ih =>
      rw [namesOf_cons, List.nodup_cons] at h
      by_cases h1 : t.name = n
      · simp only [removeName, if_pos h1]
        exact ih h.2
      · simp only [removeName, if_neg h1, namesOf_cons, List.nodup_cons]
        exact ⟨fun hm => h.1 (mem_namesOf_removeName rest n t.name hm), ih h.2⟩

theorem findService_removeName (R : List Service) (n m : String) :
    findService (removeName R n) m = if m = n then none else findService R m := by
  induction R with
  | nil => simp [removeName, findService]
  | cons t rest ih =>
      by_cases h2 : m = n
      · subst h2
        by_cases h1 : t.name = m
        · simp [removeName, findService, h1, ih]
        · simp [removeName, findService, h1, ih]
      · by_cases h1 : t.name = n
        · have h3 : ¬ t.name = m := fun hh => h2 (hh.symm.trans h1)
          have h4 : ¬ n = m := fun hh => h2 hh.symm
          simp [removeName, findService, h1, h2, h3, h4, ih]
        · by_cases h5 : t.name = m
          · simp [removeName, findService, h1, h5, h2]
          · simp [removeName, findService, h1, h5, h2, ih]

theorem countName_eq_zero_of_not_mem (R : List Service) (n : String)
    (h : n ∉ namesOf R) : countName R n = 0 := by
  induction R with
  | nil => rfl
  | cons t rest ih =>
      rw [namesOf_cons, List.mem_cons, not_or] at h
      have h1 : ¬ t.name = n := fun hh => h.1 hh.symm
      simp only [countName, if_neg h1]
      exact ih h.2

theorem countName_insertOrReplace (R : List Service) (e : Service)
    (h : (namesOf R).Nodup) : countName (insertOrReplace R e) e.name = 1 := by
  induction R with
  | nil => simp [insertOrReplace, countName]
  | cons t rest ih =>
      rw [namesOf_cons, List.nodup_cons] at h
      by_cases h1 : t.name = e.name
      · have h2 : e.name ∉ namesOf rest := h1 ▸ h.1
        simp [insertOrReplace, h1, countName,
          countName_eq_zero_of_not_mem rest e.name h2]
      · simp [insertOrReplace, countName, h1, ih h.2]

theorem removeName_eq_self_of_not_mem (R : List Service) (n : String)
    (h : n ∉ namesOf R) : removeName R n = R := by
  induction R with
  | nil => rfl
  | cons t rest ih =>
      rw [namesOf_cons, List.mem_cons, not_or] at h
      have h1 : ¬ t.name = n := fun hh => h.1 hh.symm
      simp only [removeName, if_neg h1]
      rw [ih h.2]

theorem length_removeName_le (R : List Service) (n : String) :
    (removeName R n).length ≤ R.length := by
  induction R with
  | nil => simp [removeName]
  | cons t rest ih =>
      simp only [removeName]
      by_cases h1 : t.name = n
      · simp only [if_pos h1, List.length_cons]
        omega
      · simp only [if_neg h1, List.length_cons]
        omega

theorem length_removeName_lt_of_mem (R : List Service) (n : String)
    (h : n ∈ namesOf R) : (removeName R n).length < R.length := by
  induction R with
  | nil => simp [namesOf_nil] at h
  | cons t rest ih =>
      simp only [removeName]
      by_cases h1 : t.name = n
      · simp only [if_pos h1, List.length_cons]
        have := length_removeName_le rest n
        omega
      · rw [namesOf_cons, List.mem_cons] at h
        rcases h with h | h
        · exact absurd h.symm h1
        · simp only [if_neg h1, List.length_cons]
          have := ih h
          omega

theorem unregister_snd (R : List Service) (n : String) :
    (unregister_service R n).2 = containsName R n := by
  simp only [unregister_service, containsName]
  by_cases h : n ∈ namesOf R
  · have h1 := length_removeName_lt_of_mem R n h
    have h2 := (mem_namesOf_iff_findService R n).mp h
    simp [h1, h2]
  · have h1 := removeName_eq_self_of_not_mem R n h
    have h2 : (findService R n).isSome = false := by
      rcases hf : findService R n with _ | s
      · rfl
      · exact absurd ((mem_namesOf_iff_findService R n).mpr (by simp [hf])) h
    simp [h1, h2]

theorem mem_removeName (R : List Service) (n : String) (s : Service) :
    s ∈ removeName R n ↔ s ∈ R ∧ s.name ≠ n := by
  induction R with
  | nil => simp [removeName]
  | cons t rest ih =>
      by_cases h1 : t.name = n
      · simp only [removeName, if_pos h1, ih, List.mem_cons]
        constructor
        · rintro ⟨hs, hn⟩
          exact ⟨Or.inr hs, hn⟩
        · rintro ⟨h | hs, hn⟩
          · subst h
            exact absurd h1 hn
          · exact ⟨hs, hn⟩
      · simp only [removeName, if_neg h1, List.mem_cons, ih]
        constructor
        · rintro (h | ⟨hs, hn⟩)
          · subst h
            exact ⟨Or.inl rfl, h1⟩
          · exact ⟨Or.inr hs, hn⟩
        · rintro ⟨h | hs, hn⟩
          · exact Or.inl h
          · exact Or.inr ⟨hs, hn⟩

theorem namesV0_nil : namesV0 ([] : List ServiceV0) = [] := rfl

theorem namesV0_cons (t : ServiceV0) (rest : List ServiceV0) :
    namesV0 (t :: rest) = t.name :: namesV0 rest := rfl

theorem findV0_insertOrReplaceV0 (R : List ServiceV0) (e : ServiceV0) (m : String) :
    findV0 (insertOrReplaceV0 R e) m =
      if m = e.name then some e else findV0 R m := by
  induction R with
  | nil =>
      by_cases h : m = e.name
      · subst h
        simp [insertOrReplaceV0, findV0]
      · have h2 : ¬ e.name = m := fun hh => h hh.symm
        simp [insertOrReplaceV0, findV0, h, h2]
  | cons t rest ih =>
      by_cases h1 : t.name = e.name
      · by_cases h2 : m = e.name
        · subst h2
          simp [insertOrReplaceV0, findV0, h1]
        · have h3 : ¬ e.name = m := fun hh => h2 hh.symm
          have h4 : ¬ t.name = m := fun hh => h3 (h1 ▸ hh)
          simp [insertOrReplaceV0, findV0, h1, h2, h3, h4]
      · by_cases h2 : t.name = m
        · have h3 : ¬ m = e.name := fun hh => h1 (h2.trans hh)
          simp [insertOrReplaceV0, findV0, h1, h2, h3]
        · simp [insertOrReplaceV0, findV0, h1, h2, ih]

theorem mem_namesV0_iff_findV0 (R : List ServiceV0) (n : String) :
    n ∈ namesV0 R ↔ (findV0 R n).isSome = true := by
  induction R with
  | nil => simp [namesV0_nil, findV0]
  | cons t rest ih =>
      rw [namesV0_cons, List.mem_cons]
      by_cases h : t.name = n
      · simp [findV0, h]
      · have h2 : ¬ n = t.name := fun hh => h hh.symm
        simp [findV0, h, h2, ih]

theorem findV0_removeNameV0 (R : List ServiceV0) (n m : String) :
    findV0 (removeNameV0 R n) m = if m = n then none else findV0 R m := by
  induction R with
  | nil => simp [removeNameV0, findV0]
  | cons t rest ih =>
      by_cases h2 : m = n
      · subst h2
        by_cases h1 : t.name = m
        · simp [removeNameV0, findV0, h1, ih]
        · simp [removeNameV0, findV0, h1, ih]
      · by_cases h1 : t.name = n
        · have h3 : ¬ t.name = m := fun hh => h2 (hh.symm.trans h1)
          have h4 : ¬ n = m := fun hh => h2 hh.symm
          simp [removeNameV0, findV0, h1, h2, h3, h4, ih]
        · by_cases h5 : t.name = m
          · simp [removeNameV0, findV0, h1, h5, h2]
          · simp [removeNameV0, findV0, h1, h5, h2, ih]

theorem findV0_name (R : List ServiceV0) (n : String) (e : ServiceV0)
    (h : findV0 R n = some e) : e.name = n := by
  induction R with
  | nil => simp [findV0] at h
  | cons t rest ih =>
      by_cases h1 : t.name = n
      · simp only [findV0, if_pos h1] at h
        cases h
        exact h1
      · simp only [findV0, if_neg h1] at h
        exact ih h

theorem findV0_mem (R : List ServiceV0) (n : String) (e : ServiceV0)
    (h : findV0 R n = some e) : e ∈ R := by
  induction R with
  | nil => simp [findV0] at h
  | cons t rest ih =>
      by_cases h1 : t.name = n
      · simp only [findV0, if_pos h1] at h
        cases h
        exact List.mem_cons_self _ _
      · simp only [findV0, if_neg h1] at h
        exact List.mem_cons_of_mem t (ih h)

theorem mem_findV0_isSome (R : List ServiceV0) (e : ServiceV0) (h : e ∈ R) :
    (findV0 R e.name).isSome = true := by
  induction R with
  | nil => simp at h
  | cons t rest ih =>
      rcases List.mem_cons.mp h with h1 | h1
      · subst h1
        simp [findV0]
      · by_cases h2 : t.name = e.name
        · simp [findV0, h2]
        · simp only [findV0, if_neg h2]
          exact ih h1

theorem nodup_findV0_of_mem (R : List ServiceV0) (e : ServiceV0)
    (hnd : (namesV0 R).Nodup) (h : e ∈ R) : findV0 R e.name = some e := by
  induction R with
  | nil => simp at h
  | cons t rest ih =>
      rw [namesV0_cons, List.nodup_cons] at hnd
      rcases List.mem_cons.mp h with h1 | h1
      · subst h1
        simp [findV0]
      · have h2 : ¬ t.name = e.name := by
          intro hh
          have : e.name ∈ namesV0 rest := by
            have := mem_findV0_isSome rest e h1
            exact (mem_namesV0_iff_findV0 rest e.name).mpr this
          exact hnd.1 (hh ▸ this)
        simp only [findV0, if_neg h2]
        exact ih hnd.2 h1

theorem wrapSub_eq (c w : Nat) (hw : w ≤ c) (hc : c < u32Mod) :
    (c + u32Mod - w) % u32Mod = c - w := by
  unfold u32Mod at *
  omega

theorem totalWeight_nil : totalWeight [] = 0 := rfl

theorem totalWeight_cons (s : Service) (l : List Service) :
    totalWeight (s :: l) = s.weight + totalWeight l := by
  simp [totalWeight]

theorem totalWeightV0_nil : totalWeightV0 [] = 0 := rfl

theorem totalWeightV0_cons (s : ServiceV0) (l : List ServiceV0) :
    totalWeightV0 (s :: l) = s.weight + totalWeightV0 l := by
  simp [totalWeightV0]

theorem cumWeight_zero (l : List Service) : cumWeight l 0 = 0 := rfl

theorem cumWeight_cons_succ (s : Service) (l : List Service) (k : Nat) :
    cumWeight (s :: l) (k + 1) = s.weight + cumWeight l k := by
  simp [cumWeight, List.take_succ_cons, totalWeight_cons]

theorem totalWeight_eq_zero (l : List Service) (h : ∀ s ∈ l, s.weight = 0) :
    totalWeight l = 0 := by
  induction l with
  | nil => rfl
  | cons t rest ih =>
      rw [totalWeight_cons, h t (List.mem_cons_self _ _),
        ih (fun s hs => h s (List.mem_cons_of_mem t hs))]

theorem selectLoop_spec (l : List Service) (c : Nat) (hc : c < u32Mod)
    (hlt : c < totalWeight l) :
    ∃ i, ∃ h : i < l.length, selectLoop l c = some (l.get ⟨i, h⟩) ∧
      c < cumWeight l (i + 1) ∧ ∀ j, j < i → cumWeight l (j + 1) ≤ c := by
  induction l generalizing c with
  | nil => rw [totalWeight_nil] at hlt; omega
  | cons s rest ih =>
      by_cases hguard : c < s.weight
      · refine ⟨0, by simp, ?_, ?_, ?_⟩
        · simp [selectLoop, hguard]
        · rw [cumWeight_cons_succ, cumWeight_zero]
          omega
        · intro j hj
          omega
      · have hw : s.weight ≤ c := Nat.le_of_not_lt hguard
        have hlt2 : c - s.weight < totalWeight rest := by
          rw [totalWeight_cons] at hlt
          omega
        have hc2 : c - s.weight < u32Mod := by omega
        obtain ⟨i, hi, hsel, hcum, hmin⟩ := ih (c - s.weight) hc2 hlt2
        refine ⟨i + 1, by simpa using Nat.succ_lt_succ hi, ?_, ?_, ?_⟩
        · simp only [selectLoop, if_neg hguard, wrapSub_eq c s.weight hw hc]
          exact hsel
        · rw [cumWeight_cons_succ]
          omega
        · intro j hj
          cases j with
          | zero =>
              rw [cumWeight_cons_succ, cumWeight_zero]
              omega
          | succ j2 =>
              rw [cumWeight_cons_succ]
              have := hmin j2 (by omega)
              omega

theorem selectLoop_mem (l : List Service) (c : Nat) (s : Service)
    (h : selectLoop l c = some s) : s ∈ l := by
  induction l generalizing c with
  | nil => simp [selectLoop] at h
  | cons t rest ih =>
      by_cases hg : c < t.weight
      · simp only [selectLoop, if_pos hg] at h
        cases h
        exact List.mem_cons_self _ _
      · simp only [selectLoop, if_neg hg] at h
        exact List.mem_cons_of_mem t (ih _ h)

theorem selectLoopV0_mem (l : List ServiceV0) (c : Nat) (s : ServiceV0)
    (h : selectLoopV0 l c = some s) : s ∈ l := by
  induction l generalizing c with
  | nil => simp [selectLoopV0] at h
  | cons t rest ih =>
      by_cases hg : c < t.weight
      · simp only [selectLoopV0, if_pos hg] at h
        cases h
        exact List.mem_cons_self _ _
      · simp only [selectLoopV0, if_neg hg] at h
        exact List.mem_cons_of_mem t (ih _ h)

theorem totalWeight_map_toService (l : List ServiceV0) :
    totalWeight (l.map toService) = totalWeightV0 l := by
  induction l with
  | nil => rfl
  | cons t rest ih =>
      rw [List.map_cons, totalWeight_cons, totalWeightV0_cons, ih]
      rfl

theorem selectLoop_map_toService (l : List ServiceV0) (c : Nat) (hc : c < u32Mod) :
    selectLoop (l.map toService) c = (selectLoopV0 l c).map toService := by
  induction l generalizing c with
  | nil => simp [selectLoop, selectLoopV0]
  | cons t rest ih =>
      have hwt : (toService t).weight = t.weight := rfl
      by_cases hg : c < t.weight
      · simp only [List.map_cons, selectLoop, selectLoopV0, hwt, if_pos hg]
        rfl
      · have hw : t.weight ≤ c := Nat.le_of_not_lt hg
        simp only [List.map_cons, selectLoop, selectLoopV0, hwt, if_neg hg]
        rw [wrapSub_eq c t.weight hw hc]
        exact ih (c - t.weight) (by omega)

theorem findV0_cons (t : ServiceV0) (rest : List ServiceV0) (n : String) :
    findV0 (t :: rest) n = if t.name = n then some t else findV0 rest n := rfl

theorem findV0_not_mem_none (L : List ServiceV0) (n : String)
    (h : n ∉ namesV0 L) : findV0 L n = none := by
  rcases hf : findV0 L n with _ | e
  · rfl
  · exact absurd ((mem_namesV0_iff_findV0 L n).mpr (by simp [hf])) h

theorem applyMutations_nil (R : List ServiceV0) : applyMutations R [] = R := rfl

theorem applyMutations_cons (R : List ServiceV0) (m : Mutation)
    (ms : List Mutation) :
    applyMutations R (m :: ms) = applyMutations (applyMutation R m) ms := rfl

theorem applyMutations_append (R : List ServiceV0) (ms1 ms2 : List Mutation) :
    applyMutations R (ms1 ++ ms2) = applyMutations (applyMutations R ms1) ms2 := by
  simp [applyMutations, List.foldl_append]

theorem registerMissing_cons (d : ServiceV0) (D R0 : List ServiceV0) :
    registerMissing (d :: D) R0 =
      if containsV0 R0 d.name = true then registerMissing D R0
      else .reg d :: registerMissing D R0 := by
  simp only [registerMissing, List.filterMap_cons]
  by_cases hc : containsV0 R0 d.name = true
  · simp [hc]
  · simp [hc]

theorem removeStale_cons (e : ServiceV0) (L D : List ServiceV0) :
    removeStale D (e :: L) =
      if containsV0 D e.name = true then removeStale D L
      else .unreg e.name :: removeStale D L := by
  simp only [removeStale, List.filterMap_cons]
  by_cases hc : containsV0 D e.name = true
  · simp [hc]
  · simp [hc]

theorem updateChanged_cons_none (d : ServiceV0) (D R0 : List ServiceV0)
    (hR : findV0 R0 d.name = none) :
    updateChanged (d :: D) R0 = updateChanged D R0 := by
  simp only [updateChanged, List.filterMap_cons, hR]

theorem updateChanged_cons_same (d old : ServiceV0) (D R0 : List ServiceV0)
    (hR : findV0 R0 d.name = some old)
    (heq : old.weight = d.weight ∧ old.ip = d.ip ∧ old.port = d.port) :
    updateChanged (d :: D) R0 = updateChanged D R0 := by
  simp only [updateChanged, List.filterMap_cons, hR, if_pos heq]

theorem updateChanged_cons_diff (d old : ServiceV0) (D R0 : List ServiceV0)
    (hR : findV0 R0 d.name = some old)
    (hne : ¬ (old.weight = d.weight ∧ old.ip = d.ip ∧ old.port = d.port)) :
    updateChanged (d :: D) R0 = .reg d :: updateChanged D R0 := by
  simp only [updateChanged, List.filterMap_cons, hR, if_neg hne]

theorem updateHit_of_D_none (D R0 : List ServiceV0) (n : String)
    (h : findV0 D n = none) : updateHit D R0 n = false := by
  unfold updateHit
  rw [h]

theorem updateHit_of_R_none (D R0 : List ServiceV0) (n : String)
    (h : findV0 R0 n = none) : updateHit D R0 n = false := by
  unfold updateHit
  rw [h]
  rcases findV0 D n with _ | e <;> rfl

theorem updateHit_some_same (D R0 : List ServiceV0) (n : String)
    (e old : ServiceV0) (hD : findV0 D n = some e) (hR : findV0 R0 n = some old)
    (heq : old.weight = e.weight ∧ old.ip = e.ip ∧ old.port = e.port) :
    updateHit D R0 n = false := by
  unfold updateHit
  rw [hD, hR]
  simp [heq]

theorem updateHit_some_diff (D R0 : List ServiceV0) (n : String)
    (e old : ServiceV0) (hD : findV0 D n = some e) (hR : findV0 R0 n = some old)
    (hne : ¬ (old.weight = e.weight ∧ old.ip = e.ip ∧ old.port = e.port)) :
    updateHit D R0 n = true := by
  unfold updateHit
  rw [hD, hR]
  simp [hne]

theorem findV0_pass_registerMissing (D R0 : List ServiceV0) (n : String) :
    ∀ acc : List ServiceV0, (namesV0 D).Nodup →
      findV0 (applyMutations acc (registerMissing D R0)) n =
        if containsV0 D n = true ∧ ¬ containsV0 R0 n = true then findV0 D n
        else findV0 acc n := by
  induction D with
  | nil =>
      intro acc _
      simp [registerMissing, applyMutations, containsV0, findV0]
  | cons d D ih =>
      intro acc hD
      rw [namesV0_cons, List.nodup_cons] at hD
      rw [registerMissing_cons]
      by_cases hc : containsV0 R0 d.name = true
      · rw [if_pos hc, ih acc hD.2]
        by_cases hd : d.name = n
        · subst hd
          have hDn : findV0 D d.name = none := findV0_not_mem_none D d.name hD.1
          have hcD : ¬ containsV0 D d.name = true := by
            rw [containsV0, hDn]
            simp
          rw [if_neg (fun h => hcD h.1), if_neg (fun h => h.2 hc)]
        · have hcons : containsV0 (d :: D) n = containsV0 D n := by
            rw [containsV0, containsV0, findV0_cons, if_neg hd]
          have hfind : findV0 (d :: D) n = findV0 D n := by
            rw [findV0_cons, if_neg hd]
          rw [hcons, hfind]
      · rw [if_neg hc, applyMutations_cons,
          ih (applyMutation acc (Mutation.reg d)) hD.2]
        have hacc : findV0 (applyMutation acc (Mutation.reg d)) n =
            if n = d.name then some d else findV0 acc n :=
          findV0_insertOrReplaceV0 acc d n
        by_cases hd : d.name = n
        · subst hd
          have hDn : findV0 D d.name = none := findV0_not_mem_none D d.name hD.1
          have hcD : ¬ containsV0 D d.name = true := by
            rw [containsV0, hDn]
            simp
          have hconsT : containsV0 (d :: D) d.name = true := by
            rw [containsV0, findV0_cons, if_pos rfl]
            rfl
          have hfind : findV0 (d :: D) d.name = some d := by
            rw [findV0_cons, if_pos rfl]
          rw [if_neg (fun h => hcD h.1), hacc, if_pos rfl,
            if_pos ⟨hconsT, hc⟩, hfind]
        · have hacc2 : findV0 (applyMutation acc (Mutation.reg d)) n =
              findV0 acc n := by
            rw [hacc, if_neg (fun hh => hd hh.symm)]
          have hcons : containsV0 (d :: D) n = containsV0 D n := by
            rw [containsV0, containsV0, findV0_cons, if_neg hd]
          have hfind : findV0 (d :: D) n = findV0 D n := by
            rw [findV0_cons, if_neg hd]
          rw [hacc2, hcons, hfind]

theorem findV0_pass_removeStale (D : List ServiceV0) (n : String) :
    ∀ L acc : List ServiceV0,
      findV0 (applyMutations acc (removeStale D L)) n =
        if containsV0 L n = true ∧ ¬ containsV0 D n = true then none
        else findV0 acc n := by
  intro L
  induction L with
  | nil =>
      intro acc
      simp [removeStale, applyMutations, containsV0, findV0]
  | cons e L ih =>
      intro acc
      rw [removeStale_cons]
      by_cases hc : containsV0 D e.name = true
      · rw [if_pos hc, ih acc]
        by_cases hd : e.name = n
        · have hcDn : containsV0 D n = true := hd ▸ hc
          rw [if_neg (fun h => h.2 hcDn), if_neg (fun h => h.2 hcDn)]
        · have hcons : containsV0 (e :: L) n = containsV0 L n := by
            rw [containsV0, containsV0, findV0_cons, if_neg hd]
          rw [hcons]
      · rw [if_neg hc, applyMutations_cons,
          ih (applyMutation acc (Mutation.unreg e.name))]
        have hacc : findV0 (applyMutation acc (Mutation.unreg e.name)) n =
            if n = e.name then none else findV0 acc n :=
          findV0_removeNameV0 acc e.name n
        by_cases hd : e.name = n
        · subst hd
          have hconsT : containsV0 (e :: L) e.name = true := by
            rw [containsV0, findV0_cons, if_pos rfl]
            rfl
          by_cases hcl : containsV0 L e.name = true ∧ ¬ containsV0 D e.name = true
          · rw [if_pos hcl, if_pos ⟨hconsT, hc⟩]
          · rw [if_neg hcl, hacc, if_pos rfl, if_pos ⟨hconsT, hc⟩]
        · have hacc2 : findV0 (applyMutation acc (Mutation.unreg e.name)) n =
              findV0 acc n := by
            rw [hacc, if_neg (fun hh => hd hh.symm)]
          have hcons : containsV0 (e :: L) n = containsV0 L n := by
            rw [containsV0, containsV0, findV0_cons, if_neg hd]
          rw [hacc2, hcons]

theorem findV0_pass_updateChanged (D R0 : List ServiceV0) (n : String) :
    ∀ acc : List ServiceV0, (namesV0 D).Nodup →
      findV0 (applyMutations acc (updateChanged D R0)) n =
        if updateHit D R0 n = true then findV0 D n
        else findV0 acc n := by
  induction D with
  | nil =>
      intro acc _
      have h0 : updateHit [] R0 n = false := updateHit_of_D_none [] R0 n rfl
      rw [h0]
      simp [updateChanged, applyMutations]
  | cons d D ih =>
      intro acc hD
      rw [namesV0_cons, List.nodup_cons] at hD
      by_cases hd : d.name = n
      · subst hd
        have hDn : findV0 D d.name = none := findV0_not_mem_none D d.name hD.1
        have hhitD : updateHit D R0 d.name = false :=
          updateHit_of_D_none D R0 d.name hDn
        have hfind : findV0 (d :: D) d.name = some d := by
          rw [findV0_cons, if_pos rfl]
        rcases hR : findV0 R0 d.name with _ | old
        · have hhit : updateHit (d :: D) R0 d.name = false :=
            updateHit_of_R_none (d :: D) R0 d.name hR
          rw [updateChanged_cons_none d D R0 hR, ih acc hD.2, hhitD, hhit]
          simp
        · by_cases heq : old.weight = d.weight ∧ old.ip = d.ip ∧ old.port = d.port
          · have hhit : updateHit (d :: D) R0 d.name = false :=
              updateHit_some_same (d :: D) R0 d.name d old hfind hR heq
            rw [updateChanged_cons_same d old D R0 hR heq, ih acc hD.2, hhitD,
              hhit]
            simp
          · have hhit : updateHit (d :: D) R0 d.name = true :=
              updateHit_some_diff (d :: D) R0 d.name d old hfind hR heq
            rw [updateChanged_cons_diff d old D R0 hR heq, applyMutations_cons,
              ih (applyMutation acc (Mutation.reg d)) hD.2, hhitD, hhit]
            simp only [Bool.false_eq_true, if_false, if_true]
            rw [hfind]
            exact findV0_insertOrReplaceV0 acc d d.name |>.trans (if_pos rfl)
      · have hfind : findV0 (d :: D) n = findV0 D n := by
          rw [findV0_cons, if_neg hd]
        have hhit : updateHit (d :: D) R0 n = updateHit D R0 n := by
          unfold updateHit
          rw [hfind]
        rcases hR : findV0 R0 d.name with _ | old
        · rw [updateChanged_cons_none d D R0 hR, ih acc hD.2, hhit, hfind]
        · by_cases heq : old.weight = d.weight ∧ old.ip = d.ip ∧ old.port = d.port
          · rw [updateChanged_cons_same d old D R0 hR heq, ih acc hD.2, hhit,
              hfind]
          · rw [updateChanged_cons_diff d old D R0 hR heq, applyMutations_cons,
              ih (applyMutation acc (Mutation.reg d)) hD.2, hhit, hfind]
            have hacc2 : findV0 (applyMutation acc (Mutation.reg d)) n =
                findV0 acc n := by
              have := findV0_insertOrReplaceV0 acc d n
              rw [applyMutation, register_service_v0] at *
              rw [this, if_neg (fun hh => hd hh.symm)]
            rw [hacc2]

theorem serviceV0_ext (a b : ServiceV0) (h1 : a.name = b.name)
    (h2 : a.weight = b.weight) (h3 : a.ip = b.ip) (h4 : a.port = b.port) :
    a = b := by
  cases a
  cases b
  simp_all

theorem findV0_sync (D R : List ServiceV0) (hD : (namesV0 D).Nodup)
    (n : String) :
    findV0 (sync_services_with_load_balancer D R) n = findV0 D n := by
  have h3 := findV0_pass_updateChanged D R n
    (applyMutations (applyMutations R (registerMissing D R)) (removeStale D R)) hD
  have h2 := findV0_pass_removeStale D n R
    (applyMutations R (registerMissing D R))
  have h1 := findV0_pass_registerMissing D R n R hD
  rw [sync_services_with_load_balancer, syncMutations, applyMutations_append,
    applyMutations_append, h3, h2, h1]
  by_cases hhit : updateHit D R n = true
  · rw [if_pos hhit]
  · rw [if_neg hhit]
    by_cases hDn : containsV0 D n = true
    · rcases hf : findV0 D n with _ | e
      · rw [containsV0, hf] at hDn
        simp at hDn
      · by_cases hRn : containsV0 R n = true
        · rw [if_neg (fun h => h.2 hDn), if_neg (fun h => h.2 hRn)]
          rcases hg : findV0 R n with _ | old
          · rw [containsV0, hg] at hRn
            simp at hRn
          · by_cases heq : old.weight = e.weight ∧ old.ip = e.ip ∧ old.port = e.port
            · have hen : e.name = n := findV0_name D n e hf
              have hon : old.name = n := findV0_name R n old hg
              have hoe : old = e :=
                serviceV0_ext old e (by rw [hon, hen]) heq.1 heq.2.1 heq.2.2
              rw [hoe]
            · exact absurd (updateHit_some_diff D R n e old hf hg heq) hhit
        · rw [if_neg (fun h => hRn h.1), if_pos ⟨hDn, hRn⟩]
    · have hf : findV0 D n = none := by
        rcases hf2 : findV0 D n with _ | e
        · rfl
        · rw [containsV0, hf2] at hDn
          simp at hDn
      by_cases hRn : containsV0 R n = true
      · have hcond : containsV0 R n = true ∧ ¬ containsV0 D n = true := ⟨hRn, hDn⟩
        rw [if_pos hcond, hf]
      · rw [if_neg (fun h => hRn h.1), if_neg (fun h => hDn h.1), hf]
        rcases hg : findV0 R n with _ | old
        · rfl
        · rw [containsV0, hg] at hRn
          simp at hRn

theorem syncMutations_fixed (D R : List ServiceV0) (hD : (namesV0 D).Nodup) :
    syncMutations D (sync_services_with_load_balancer D R) = [] := by
  have hsync : ∀ m, findV0 (sync_services_with_load_balancer D R) m = findV0 D m :=
    fun m => findV0_sync D R hD m
  rw [syncMutations, List.append_eq_nil, List.append_eq_nil]
  refine ⟨⟨?_, ?_⟩, ?_⟩
  · rw [registerMissing, List.filterMap_eq_nil_iff]
    intro e he
    have hc : containsV0 (sync_services_with_load_balancer D R) e.name = true := by
      rw [containsV0, hsync e.name, nodup_findV0_of_mem D e hD he]
      rfl
    rw [if_pos hc]
  · rw [removeStale, List.filterMap_eq_nil_iff]
    intro e he
    have h1 : (findV0 (sync_services_with_load_balancer D R) e.name).isSome = true :=
      mem_findV0_isSome _ e he
    rw [hsync e.name] at h1
    have hc : containsV0 D e.name = true := h1
    rw [if_pos hc]
  · rw [updateChanged, List.filterMap_eq_nil_iff]
    intro e he
    have hfind : findV0 (sync_services_with_load_balancer D R) e.name = some e :=
      (hsync e.name).trans (nodup_findV0_of_mem D e hD he)
    rw [hfind]
    show (if e.weight = e.weight ∧ e.ip = e.ip ∧ e.port = e.port then none
      else some (Mutation.reg e)) = none
    rw [if_pos ⟨rfl, rfl, rfl⟩]

theorem countNameV0_eq_zero_of_not_mem (R : List ServiceV0) (n : String)
    (h : n ∉ namesV0 R) : countNameV0 R n = 0 := by
  induction R with
  | nil => rfl
  | cons t rest ih =>
      rw [namesV0_cons, List.mem_cons, not_or] at h
      have h1 : ¬ t.name = n := fun hh => h.1 hh.symm
      simp only [countNameV0, if_neg h1]
      exact ih h.2

theorem countNameV0_insertOrReplaceV0 (R : List ServiceV0) (e : ServiceV0)
    (h : (namesV0 R).Nodup) : countNameV0 (insertOrReplaceV0 R e) e.name = 1 := by
  induction R with
  | nil => simp [insertOrReplaceV0, countNameV0]
  | cons t rest ih =>
      rw [namesV0_cons, List.nodup_cons] at h
      by_cases h1 : t.name = e.name
      · have h2 : e.name ∉ namesV0 rest := h1 ▸ h.1
        simp [insertOrReplaceV0, h1, countNameV0,
          countNameV0_eq_zero_of_not_mem rest e.name h2]
      · simp [insertOrReplaceV0, countNameV0, h1, ih h.2]

/-- C1 counterexample: with an environment in which no variable is set,
`register_service` from `main.rs` rejects the entry inside the registry layer
and leaves the registry without any entry named `"svc-a"` — register does not
always succeed. -/
theorem register_always_succeeds_cex :
    register_service (fun _ => none) [] { name := "svc-a", weight := 1 } = [] ∧
      countName (register_service (fun _ => none) []
        { name := "svc-a", weight := 1 }) "svc-a" ≠ 1 := by
  decide

/-- C1 (amended): `main.rs` register inserts or replaces by name whenever the
entry's name resolves through the environment, leaving exactly one entry with
that name holding the new values and all other names untouched; the
`main.v0.rs` register does so unconditionally. -/
theorem register_replaces_by_name_when_resolvable
    (env : String → Option String) (R : List Service) (e : Service)
    (R2 : List ServiceV0) (e2 : ServiceV0) (m : String)
    (hsome : (get_service_address env e.name).isSome = true)
    (hR : (namesOf R).Nodup) (hR2 : (namesV0 R2).Nodup) :
    countName (register_service env R e) e.name = 1 ∧
      findService (register_service env R e) e.name = some e ∧
      (m ≠ e.name → findService (register_service env R e) m = findService R m) ∧
      countNameV0 (register_service_v0 R2 e2) e2.name = 1 ∧
      findV0 (register_service_v0 R2 e2) e2.name = some e2 := by
  have hnone : (get_service_address env e.name).isNone = false := by
    rcases hga : get_service_address env e.name with _ | a
    · rw [hga] at hsome
      simp at hsome
    · rfl
  have hreg : register_service env R e = insertOrReplace R e := by
    rw [register_service, hnone]
    simp
  refine ⟨?_, ?_, ?_, ?_, ?_⟩
  · rw [hreg]
    exact countName_insertOrReplace R e hR
  · rw [hreg, findService_insertOrReplace, if_pos rfl]
  · intro hm
    rw [hreg, findService_insertOrReplace, if_neg hm]
  · rw [register_service_v0]
    exact countNameV0_insertOrReplaceV0 R2 e2 hR2
  · rw [register_service_v0, findV0_insertOrReplaceV0, if_pos rfl]

/-- C1 witness: a resolvable environment, a registry with one other entry. -/
theorem register_replaces_by_name_when_resolvable_witness :
    countName (register_service (fun _ => some "10.0.0.1") [⟨"b", 2⟩] ⟨"a", 1⟩)
        "a" = 1 ∧
      findService (register_service (fun _ => some "10.0.0.1") [⟨"b", 2⟩]
        ⟨"a", 1⟩) "a" = some ⟨"a", 1⟩ ∧
      ("b" ≠ "a" →
        findService (register_service (fun _ => some "10.0.0.1") [⟨"b", 2⟩]
          ⟨"a", 1⟩) "b" = findService [⟨"b", 2⟩] "b") ∧
      countNameV0 (register_service_v0 [⟨"b", 2, "10.0.0.2", 80⟩]
        ⟨"a", 1, "10.0.0.3", 80⟩) "a" = 1 ∧
      findV0 (register_service_v0 [⟨"b", 2, "10.0.0.2", 80⟩]
        ⟨"a", 1, "10.0.0.3", 80⟩) "a" = some ⟨"a", 1, "10.0.0.3", 80⟩ :=
  register_replaces_by_name_when_resolvable (fun _ => some "10.0.0.1")
    [⟨"b", 2⟩] ⟨"a", 1⟩ [⟨"b", 2, "10.0.0.2", 80⟩] ⟨"a", 1, "10.0.0.3", 80⟩ "b"
    (by decide) (by decide) (by decide)

/-- C2: for a non-empty pool whose exact total weight is positive and fits in
`u32` (so that the `u32` sum does not overflow), and any draw `r < total`,
`select_service` returns the entry at the least index whose cumulative weight
exceeds `r`. -/
theorem select_service_picks_least_cumulative_index (l : List Service) (r : Nat)
    (hne : l ≠ []) (hpos : 0 < totalWeight l) (hr : r < totalWeight l)
    (hu : totalWeight l < u32Mod) :
    ∃ i, ∃ h : i < l.length, select_service l r = some (l.get ⟨i, h⟩) ∧
      r < cumWeight l (i + 1) ∧ ∀ j, j < i → cumWeight l (j + 1) ≤ r := by
  obtain ⟨i, hi, hsel, hcum, hmin⟩ := selectLoop_spec l r (by omega) hr
  refine ⟨i, hi, ?_, hcum, hmin⟩
  simp only [select_service]
  rw [if_neg hne, if_neg (by omega : ¬ totalWeight l = 0), hsel]

/-- C2 witness: pool `a:2, b:1`, draw `3` selects the second entry. -/
theorem select_service_picks_least_cumulative_index_witness :
    ∃ i, ∃ h : i < ([⟨"a", 2⟩, ⟨"b", 3⟩] : List Service).length,
      select_service [⟨"a", 2⟩, ⟨"b", 3⟩] 3 =
        some (([⟨"a", 2⟩, ⟨"b", 3⟩] : List Service).get ⟨i, h⟩) ∧
      3 < cumWeight [⟨"a", 2⟩, ⟨"b", 3⟩] (i + 1) ∧
      ∀ j, j < i → cumWeight [⟨"a", 2⟩, ⟨"b", 3⟩] (j + 1) ≤ 3 :=
  select_service_picks_least_cumulative_index [⟨"a", 2⟩, ⟨"b", 3⟩] 3
    (by decide) (by decide) (by decide) (by decide)

/-- C3: one pass of the watcher's three-way diff makes every name lookup of
the registry agree with the desired state, and re-running the diff against the
unchanged desired state produces zero register/unregister mutations.  Both
snapshots are name-keyed: the desired state comes from a `HashMap` keyed by
name, and registry states built by register/unregister keep names unique. -/
theorem sync_reaches_desired_state (D R : List ServiceV0)
    (hD : (namesV0 D).Nodup) (hR : (namesV0 R).Nodup) (n : String) :
    findV0 (sync_services_with_load_balancer D R) n = findV0 D n ∧
      syncMutations D (sync_services_with_load_balancer D R) = [] :=
  ⟨findV0_sync D R hD n, syncMutations_fixed D R hD⟩

/-- C3 witness: desired `{x, y}` against registry `{y, z}`. -/
theorem sync_reaches_desired_state_witness :
    findV0 (sync_services_with_load_balancer
        [⟨"x", 1, "10.0.0.1", 80⟩, ⟨"y", 2, "10.0.0.2", 80⟩]
        [⟨"y", 2, "10.0.0.2", 80⟩, ⟨"z", 3, "10.0.0.3", 80⟩]) "x" =
      findV0 [⟨"x", 1, "10.0.0.1", 80⟩, ⟨"y", 2, "10.0.0.2", 80⟩] "x" ∧
    syncMutations [⟨"x", 1, "10.0.0.1", 80⟩, ⟨"y", 2, "10.0.0.2", 80⟩]
      (sync_services_with_load_balancer
        [⟨"x", 1, "10.0.0.1", 80⟩, ⟨"y", 2, "10.0.0.2", 80⟩]
        [⟨"y", 2, "10.0.0.2", 80⟩, ⟨"z", 3, "10.0.0.3", 80⟩]) = [] :=
  sync_reaches_desired_state
    [⟨"x", 1, "10.0.0.1", 80⟩, ⟨"y", 2, "10.0.0.2", 80⟩]
    [⟨"y", 2, "10.0.0.2", 80⟩, ⟨"z", 3, "10.0.0.3", 80⟩]
    (by decide) (by decide) "x"

/-- C4: for every pool and every `u32` draw, the `main.rs` selector (wrapping
`u32` subtraction) and the `main.v0.rs` selector (`saturating_sub`) pick the
same entry, the empty-pool and zero-total-weight fallbacks included: the two
functions agree on pools related by the field projection `toService`. -/
theorem select_service_saturating_variant_agrees (l : List ServiceV0) (r : Nat)
    (hr : r < u32Mod) :
    select_service (l.map toService) r =
      (select_service_v0 l r).map toService := by
  by_cases hnil : l = []
  · subst hnil
    simp [select_service, select_service_v0]
  · have hnil2 : l.map toService ≠ [] := by simpa using hnil
    simp only [select_service, select_service_v0]
    rw [if_neg hnil2, if_neg hnil, totalWeight_map_toService]
    by_cases hz : totalWeightV0 l = 0
    · rw [if_pos hz, if_pos hz]
      obtain ⟨a, rest, rfl⟩ := List.exists_cons_of_ne_nil hnil
      rfl
    · rw [if_neg hz, if_neg hz, selectLoop_map_toService l r hr]
      rcases hv : selectLoopV0 l r with _ | s
      · obtain ⟨a, rest, rfl⟩ := List.exists_cons_of_ne_nil hnil
        rfl
      · rfl

/-- C4 witness: a two-entry pool and draw `3`. -/
theorem select_service_saturating_variant_agrees_witness :
    select_service
        (([⟨"a", 2, "10.0.0.1", 80⟩, ⟨"b", 3, "10.0.0.2", 80⟩] :
          List ServiceV0).map toService) 3 =
      (select_service_v0 [⟨"a", 2, "10.0.0.1", 80⟩, ⟨"b", 3, "10.0.0.2", 80⟩]
        3).map toService :=
  select_service_saturating_variant_agrees
    [⟨"a", 2, "10.0.0.1", 80⟩, ⟨"b", 3, "10.0.0.2", 80⟩] 3 (by decide)

/-- C5: name uniqueness is an invariant: it is preserved by the full `main.rs`
register, by its locked insert-or-replace section, and by unregister; and
registering an existing name leaves exactly one entry with that name, holding
the new values. -/
theorem registry_name_uniqueness (env : String → Option String)
    (R : List Service) (e : Service) (n : String)
    (h : (namesOf R).Nodup) :
    (namesOf (register_service env R e)).Nodup ∧
      (namesOf (insertOrReplace R e)).Nodup ∧
      (namesOf (unregister_service R n).1).Nodup ∧
      (containsName R e.name = true →
        countName (insertOrReplace R e) e.name = 1 ∧
        findService (insertOrReplace R e) e.name = some e) := by
  refine ⟨?_, nodup_insertOrReplace R e h, nodup_removeName R n h, ?_⟩
  · rw [register_service]
    by_cases hna : (get_service_address env e.name).isNone = true
    · rw [if_pos hna]
      exact h
    · rw [if_neg hna]
      exact nodup_insertOrReplace R e h
  · intro _
    refine ⟨countName_insertOrReplace R e h, ?_⟩
    rw [findService_insertOrReplace, if_pos rfl]

/-- C5 witness: registering an existing name over a two-entry registry. -/
theorem registry_name_uniqueness_witness :
    (namesOf (register_service (fun _ => some "10.0.0.1") [⟨"a", 1⟩, ⟨"b", 2⟩]
      ⟨"a", 7⟩)).Nodup ∧
      (namesOf (insertOrReplace [⟨"a", 1⟩, ⟨"b", 2⟩] ⟨"a", 7⟩)).Nodup ∧
      (namesOf (unregister_service [⟨"a", 1⟩, ⟨"b", 2⟩] "b").1).Nodup ∧
      (containsName [⟨"a", 1⟩, ⟨"b", 2⟩] "a" = true →
        countName (insertOrReplace [⟨"a", 1⟩, ⟨"b", 2⟩] ⟨"a", 7⟩) "a" = 1 ∧
        findService (insertOrReplace [⟨"a", 1⟩, ⟨"b", 2⟩] ⟨"a", 7⟩) "a" =
          some ⟨"a", 7⟩) :=
  registry_name_uniqueness (fun _ => some "10.0.0.1") [⟨"a", 1⟩, ⟨"b", 2⟩]
    ⟨"a", 7⟩ "b" (by decide)

/-- C6: unregister returns exactly whether an entry with the name was present,
keeps exactly the entries with other names, is the identity when the name is
absent, and a second unregister of the same name returns `false`. -/
theorem unregister_presence_semantics (R : List Service) (n : String)
    (s : Service) :
    ((unregister_service R n).2 = containsName R n) ∧
      (s ∈ (unregister_service R n).1 ↔ s ∈ R ∧ s.name ≠ n) ∧
      (containsName R n = false → (unregister_service R n).1 = R) ∧
      ((unregister_service (unregister_service R n).1 n).2 = false) := by
  refine ⟨unregister_snd R n, mem_removeName R n s, ?_, ?_⟩
  · intro hno
    have hnm : n ∉ namesOf R := by
      intro hm
      have h2 := (mem_namesOf_iff_findService R n).mp hm
      rw [containsName, h2] at hno
      cases hno
    show removeName R n = R
    exact removeName_eq_self_of_not_mem R n hnm
  · rw [unregister_snd, containsName]
    have hfind : findService (unregister_service R n).1 n = none := by
      show findService (removeName R n) n = none
      rw [findService_removeName, if_pos rfl]
    rw [hfind]
    rfl

/-- C6 witness: a singleton registry and its only name. -/
theorem unregister_presence_semantics_witness :
    ((unregister_service [⟨"a", 1⟩] "a").2 = containsName [⟨"a", 1⟩] "a") ∧
      ((⟨"a", 1⟩ : Service) ∈ (unregister_service [⟨"a", 1⟩] "a").1 ↔
        (⟨"a", 1⟩ : Service) ∈ [(⟨"a", 1⟩ : Service)] ∧
          (⟨"a", 1⟩ : Service).name ≠ "a") ∧
      (containsName [⟨"a", 1⟩] "a" = false →
        (unregister_service [⟨"a", 1⟩] "a").1 = [⟨"a", 1⟩]) ∧
      ((unregister_service (unregister_service [⟨"a", 1⟩] "a").1 "a").2 =
        false) :=
  unregister_presence_semantics [⟨"a", 1⟩] "a" ⟨"a", 1⟩

/-- C7: a non-empty pool in which every weight is zero always selects the
first entry in snapshot order, whatever the draw. -/
theorem select_service_all_zero_first (l : List Service) (r : Nat)
    (hne : l ≠ []) (hz : ∀ s ∈ l, s.weight = 0) :
    ∃ h0 : 0 < l.length, select_service l r = some (l.get ⟨0, h0⟩) := by
  have htz := totalWeight_eq_zero l hz
  rcases l with _ | ⟨t, rest⟩
  · exact absurd rfl hne
  · refine ⟨Nat.succ_pos _, ?_⟩
    simp only [select_service]
    rw [if_neg hne, htz, if_pos rfl]
    rfl

/-- C7 witness: a two-entry all-zero-weight pool with draw `7`. -/
theorem select_service_all_zero_first_witness :
    ∃ h0 : 0 < ([⟨"a", 0⟩, ⟨"b", 0⟩] : List Service).length,
      select_service [⟨"a", 0⟩, ⟨"b", 0⟩] 7 =
        some (([⟨"a", 0⟩, ⟨"b", 0⟩] : List Service).get ⟨0, h0⟩) :=
  select_service_all_zero_first [⟨"a", 0⟩, ⟨"b", 0⟩] 7 (by decide)
    (by decide)

/-- C8: the empty pool yields no selection (`NoBackendAvailable`) for every
draw. -/
theorem select_service_empty_pool (r : Nat) : select_service [] r = none := by
  simp [select_service]

/-- C9 counterexample: `GET /api/services` is a parsed request whose
method/path is not `POST /v1/chat/completions`, yet `handle_client` answers
`200 OK` (the control-plane API), not `404`: paths under `/api/` are
dispatched to `handle_api_request` before the proxy-route check. -/
theorem proxy_routing_404_cex :
    ¬ ("GET" = "POST" ∧ "/api/services" = "/v1/chat/completions") ∧
      (handle_client (fun _ => none) (fun _ => false) "GET" "/api/services"
        none [] 0).1 = HttpStatus.ok ∧
      (handle_client (fun _ => none) (fun _ => false) "GET" "/api/services"
        none [] 0).1 ≠ HttpStatus.notFound := by
  decide

/-- C9 (amended): for parsed requests whose path is outside the `/api/`
control-plane prefix, anything other than `POST /v1/chat/completions` is
answered `404 Not Found` with the registry unchanged; and a
`POST /v1/chat/completions` against an empty registry snapshot is answered
`503 Service Unavailable` with the registry unchanged. -/
theorem proxy_routing_amended (env : String → Option String)
    (canConnect : String → Bool) (method path : String)
    (body : Option RegisterRequest) (R : List Service) (r : Nat)
    (hapi : strStartsWith path "/api/" = false)
    (hnot : ¬ (method = "POST" ∧ path = "/v1/chat/completions")) :
    handle_client env canConnect method path body R r = (.notFound, R) ∧
      handle_client env canConnect "POST" "/v1/chat/completions" body [] r =
        (.serviceUnavailable, []) := by
  constructor
  · simp only [handle_client]
    rw [hapi]
    rw [if_neg (by simp : ¬ (false = true))]
    rw [if_pos (not_and_or.mp hnot)]
  · simp only [handle_client]
    rw [if_neg (by decide :
      ¬ (strStartsWith "/v1/chat/completions" "/api/" = true))]
    rw [if_neg (by simp :
      ¬ (("POST" : String) ≠ "POST" ∨
        ("/v1/chat/completions" : String) ≠ "/v1/chat/completions"))]
    have hsel : select_service [] r = none := by
      simp [select_service]
    rw [hsel]

/-- C9 witness: `GET /other` over a one-entry registry, and the empty-registry
proxy request. -/
theorem proxy_routing_amended_witness :
    handle_client (fun _ => none) (fun _ => false) "GET" "/other" none
        [⟨"a", 1⟩] 0 = (.notFound, [⟨"a", 1⟩]) ∧
      handle_client (fun _ => none) (fun _ => false) "POST"
        "/v1/chat/completions" none [] 0 = (.serviceUnavailable, []) :=
  proxy_routing_amended (fun _ => none) (fun _ => false) "GET" "/other" none
    [⟨"a", 1⟩] 0 (by decide) (by decide)

/-- C10: on any non-empty pool both selector revisions are total and return a
member of the pool for every draw, the post-loop first-entry fallback
included. -/
theorem select_service_total_nonempty (l : List Service) (l2 : List ServiceV0)
    (r r2 : Nat) (h : l ≠ []) (h2 : l2 ≠ []) :
    (∃ s, select_service l r = some s ∧ s ∈ l) ∧
      ∃ t, select_service_v0 l2 r2 = some t ∧ t ∈ l2 := by
  constructor
  · simp only [select_service]
    rw [if_neg h]
    by_cases hz : totalWeight l = 0
    · rw [if_pos hz]
      obtain ⟨a, rest, rfl⟩ := List.exists_cons_of_ne_nil h
      exact ⟨a, rfl, List.mem_cons_self _ _⟩
    · rw [if_neg hz]
      rcases hv : selectLoop l r with _ | s
      · obtain ⟨a, rest, rfl⟩ := List.exists_cons_of_ne_nil h
        exact ⟨a, rfl, List.mem_cons_self _ _⟩
      · exact ⟨s, rfl, selectLoop_mem l r s hv⟩
  · simp only [select_service_v0]
    rw [if_neg h2]
    by_cases hz : totalWeightV0 l2 = 0
    · rw [if_pos hz]
      obtain ⟨a, rest, rfl⟩ := List.exists_cons_of_ne_nil h2
      exact ⟨a, rfl, List.mem_cons_self _ _⟩
    · rw [if_neg hz]
      rcases hv : selectLoopV0 l2 r2 with _ | t
      · obtain ⟨a, rest, rfl⟩ := List.exists_cons_of_ne_nil h2
        exact ⟨a, rfl, List.mem_cons_self _ _⟩
      · exact ⟨t, rfl, selectLoopV0_mem l2 r2 t hv⟩

/-- C10 witness: concrete pools, one with a draw past the total weight to
exercise the defensive fallback. -/
theorem select_service_total_nonempty_witness :
    (∃ s, select_service [⟨"a", 2⟩, ⟨"b", 3⟩] 100 = some s ∧
      s ∈ ([⟨"a", 2⟩, ⟨"b", 3⟩] : List Service)) ∧
      ∃ t, select_service_v0 [⟨"a", 2, "10.0.0.1", 80⟩] 100 = some t ∧
        t ∈ ([⟨"a", 2, "10.0.0.1", 80⟩] : List ServiceV0) :=
  select_service_total_nonempty [⟨"a", 2⟩, ⟨"b", 3⟩]
    [⟨"a", 2, "10.0.0.1", 80⟩] 100 100 (by decide) (by decide)
